import Mathlib

/-!
Verification development for the kvenv environment-resolution tool.

The Rust sources are shallowly embedded here:
* `src/env.rs` / `src/env/process_env.rs`: `OsEnv`, `ProcessEnv`,
  `ProcessEnv::into_env`, the serde serialization contract,
  `as_valid_env_name`, `value_as_string`, `convert_env_name`,
  `decode_env_from_json`, `download_env_prefixed`;
* `src/run_with.rs`: `run_with`.

Side effects are threaded explicitly: every function of the source that
calls `std::env::vars()` receives the ambient OS environment of the moment
of that call as an explicit argument and uses it; a function whose body
performs no such read (notably `ProcessEnv::into_env`) still receives the
ambient environment present at its call, and simply does not consult it.
Rust's `HashMap` is modelled as an association list in which `insert`
removes the previous binding of the key and appends the new one, so that
lookup of any key finds the most recently inserted binding.
-/

set_option maxHeartbeats 1000000

namespace Kvenv

/-- Environment vectors: ordered lists of (name, value) pairs, as
`Vec<(String, String)>` in the source. -/
abbrev EnvList := List (String × String)

/-- Models `HashMap::insert` (also each step of `collect`/`extend`): the new
binding overwrites any existing binding of the same key. -/
def insertKV (m : EnvList) (p : String × String) : EnvList :=
  m.filter (fun q => q.1 != p.1) ++ [p]

/-- Models `HashMap::remove`. -/
def removeKV (m : EnvList) (k : String) : EnvList :=
  m.filter (fun q => q.1 != k)

/-- Models `HashMap::get`: the binding of `k`, if any. -/
def findKV : EnvList → String → Option String
  | [], _ => none
  | p :: ps, k => if p.1 == k then some p.2 else findKV ps k

/-- OsEnv from `process_env.rs`: the OS-environment source of a
`ProcessEnv`, either snapshotted (`Persisted`) or invocation-relative
(`Fresh`); both variants carry the vector that was read when the value was
created. -/
inductive OsEnv where
  | Persisted (env : EnvList)
  | Fresh (env : EnvList)
deriving DecidableEq

/-- OsEnv::new — reads `std::env::vars()` (the ambient environment at the
moment of the call, passed explicitly) and tags it. -/
def OsEnv.new (ambient : EnvList) (persisted : Bool) : OsEnv :=
  if persisted then .Persisted ambient else .Fresh ambient

/-- OsEnv::empty — the serde `default` used when the field is absent from a
deserialized artifact: reads `std::env::vars()` at deserialization time. -/
def OsEnv.empty (ambient : EnvList) : OsEnv :=
  .Fresh ambient

/-- OsEnv::should_not_persist — the serde `skip_serializing_if` predicate. -/
def OsEnv.should_not_persist : OsEnv → Bool
  | .Fresh _ => true
  | .Persisted _ => false

/-- IntoIterator for OsEnv: both variants iterate their stored vector. -/
def OsEnv.vec : OsEnv → EnvList
  | .Persisted p => p
  | .Fresh p => p

/-- ProcessEnv from `process_env.rs`. -/
structure ProcessEnv where
  from_env : OsEnv
  from_kv : EnvList
  masked : List String
deriving DecidableEq

/-- ProcessEnv::new — reads the ambient environment (at construction, i.e.
resolution, time) through `OsEnv::new`. -/
def ProcessEnv.new (ambient : EnvList) (from_kv : EnvList)
    (masked : List String) (snapshot_env : Bool) : ProcessEnv :=
  { from_env := OsEnv.new ambient snapshot_env, from_kv := from_kv, masked := masked }

/-- ProcessEnv::into_env — collect the OS source into a map, extend it with
`from_kv` (later entries overwrite), then remove each masked name.
`ambientAtCall` is the ambient OS environment at the moment of the call;
the body of `into_env` performs no `std::env::vars()` read, so it is not
consulted. -/
def ProcessEnv.into_env (e : ProcessEnv) (_ambientAtCall : EnvList) : EnvList :=
  let map := e.from_env.vec.foldl insertKV []
  let map := e.from_kv.foldl insertKV map
  e.masked.foldl removeKV map

/-- The serialized form of a `ProcessEnv` (the cache artifact): serde
writes the three fields, except that `from_env` is skipped when
`should_not_persist` holds, hence an `Option`. -/
structure Artifact where
  from_env : Option OsEnv
  from_kv : EnvList
  masked : List String
deriving DecidableEq

/-- ProcessEnv::to_writer with the derived serde `Serialize`: the
`from_env` field is present in the artifact iff `should_not_persist` is
false; the other fields are written verbatim. -/
def ProcessEnv.serialize (e : ProcessEnv) : Artifact :=
  { from_env := if e.from_env.should_not_persist then none else some e.from_env
    from_kv := e.from_kv
    masked := e.masked }

/-- ProcessEnv::from_reader with the derived serde `Deserialize`: an absent
`from_env` field is replaced by the `default`, `OsEnv::empty`, which reads
the ambient environment at deserialization time. -/
def ProcessEnv.deserialize (ambientAtLoad : EnvList) (a : Artifact) : ProcessEnv :=
  { from_env := a.from_env.getD (OsEnv.empty ambientAtLoad)
    from_kv := a.from_kv
    masked := a.masked }

/-- Last-binding lookup in a raw entry list: later entries win ties. Used
only to state properties, mirroring the spec wording "later entries win". -/
def lookupLast : EnvList → String → Option String
  | [], _ => none
  | p :: ps, k =>
    match lookupLast ps k with
    | some v => some v
    | none => if p.1 == k then some p.2 else none

/-- The merge/mask law of the spec, per key: masked names map to nothing;
otherwise the last backend binding wins; otherwise the last OS binding. -/
def mergeMaskSpec (os kv : EnvList) (masked : List String) (k : String) : Option String :=
  if k ∈ masked then none
  else
    match lookupLast kv k with
    | some v => some v
    | none => lookupLast os k

theorem findKV_append (a b : EnvList) (k : String) :
    findKV (a ++ b) k = (findKV a k).orElse (fun _ => findKV b k) := by
  induction a with
  | nil => simp [findKV, Option.orElse]
  | cons p ps ih =>
    simp only [List.cons_append, findKV]
    by_cases h : p.1 == k
    · simp [h, Option.orElse]
    · simp [h, ih]

theorem findKV_filter_ne (m : EnvList) (x k : String) (h : k ≠ x) :
    findKV (m.filter (fun q => q.1 != x)) k = findKV m k := by
  induction m with
  | nil => simp [findKV]
  | cons p ps ih =>
    by_cases hp : p.1 = x
    · have : (p.1 != x) = false := by simp [hp]
      simp only [List.filter_cons, this, if_neg, Bool.false_eq_true, if_false]
      have : (p.1 == k) = false := by
        simp only [beq_eq_false_iff_ne]
        intro hk; exact h (hk ▸ hp.symm ▸ rfl)
      simp [findKV, this, ih]
    · have : (p.1 != x) = true := by simp [hp]
      simp only [List.filter_cons, this, if_true]
      simp [findKV, ih]

theorem findKV_filter_self (m : EnvList) (x : String) :
    findKV (m.filter (fun q => q.1 != x)) x = none := by
  induction m with
  | nil => simp [findKV]
  | cons p ps ih =>
    by_cases hp : p.1 = x
    · have : (p.1 != x) = false := by simp [hp]
      simp [List.filter_cons, this, ih]
    · have hne : (p.1 != x) = true := by simp [hp]
      have : (p.1 == x) = false := by simp [hp]
      simp [List.filter_cons, hne, findKV, this, ih]

theorem findKV_insertKV (m : EnvList) (p : String × String) (k : String) :
    findKV (insertKV m p) k = if p.1 = k then some p.2 else findKV m k := by
  unfold insertKV
  rw [findKV_append]
  by_cases h : p.1 = k
  · subst h
    rw [findKV_filter_self]
    simp [findKV, Option.orElse]
  · rw [findKV_filter_ne m p.1 k (fun hk => h hk.symm)]
    have hb : (p.1 == k) = false := by simp [h]
    cases hm : findKV m k <;> simp [Option.orElse, findKV, hb, hm, h]

theorem findKV_foldl_insertKV (l : EnvList) (m : EnvList) (k : String) :
    findKV (l.foldl insertKV m) k =
      (match lookupLast l k with
       | some v => some v
       | none => findKV m k) := by
  induction l generalizing m with
  | nil => simp [lookupLast]
  | cons p ps ih =>
    simp only [List.foldl_cons, ih, lookupLast, findKV_insertKV]
    cases hps : lookupLast ps k with
    | some v => rfl
    | none =>
      by_cases h : p.1 = k
      · simp [h]
      · have : (p.1 == k) = false := by simp [h]
        simp [h, this]

theorem findKV_removeKV (m : EnvList) (x k : String) :
    findKV (removeKV m x) k = if k = x then none else findKV m k := by
  unfold removeKV
  by_cases h : k = x
  · subst h; simp [findKV_filter_self]
  · simp [h, findKV_filter_ne m x k h]

theorem findKV_foldl_removeKV (ms : List String) (m : EnvList) (k : String) :
    findKV (ms.foldl removeKV m) k =
      if k ∈ ms then none else findKV m k := by
  induction ms generalizing m with
  | nil => simp
  | cons x xs ih =>
    simp only [List.foldl_cons, ih, List.mem_cons]
    by_cases h : k = x
    · subst h
      by_cases hx : k ∈ xs <;> simp [hx, findKV_removeKV]
    · by_cases hx : k ∈ xs <;> simp [h, hx, findKV_removeKV]

theorem findKV_empty (k : String) : findKV [] k = none := rfl

/-- EnvLoadError from `env.rs`. The KeyVault error payload is opaque to the
core and abstracted by a numeric id. -/
inductive EnvLoadError where
  | configurationError
  | cannotLoadSecret (code : Nat)
  | invalidSecretFormat
  | cannotDeserialize
deriving DecidableEq

/-- Whether an `Except` result is `ok`. -/
def isOkE {ε α : Type} : Except ε α → Bool
  | .ok _ => true
  | .error _ => false

/-- as_valid_env_name from `env.rs`: the name is non-empty, every
character is ASCII alphanumeric or an underscore, and the first character
is an ASCII letter; otherwise `InvalidSecretFormat`. -/
def as_valid_env_name (name : String) : Except EnvLoadError String :=
  if !name.isEmpty
      && name.data.all (fun c => c.isAlphanum || c == '_')
      && (name.data.head?.map Char.isAlpha).getD false
  then .ok name
  else .error .invalidSecretFormat

/-- serde_json `Value`. A JSON number is carried by its canonical decimal
rendering (the string `format!` produces for it), which is all the core
ever consumes of it. -/
inductive JValue where
  | str (s : String)
  | bool (b : Bool)
  | num (rendering : String)
  | null
  | arr (xs : List JValue)
  | obj (fields : List (String × JValue))

/-- value_as_string from `env.rs`: strings pass through, booleans and
numbers render to text, null renders to "null", arrays and objects fail. -/
def value_as_string : JValue → Except EnvLoadError String
  | .str s => .ok s
  | .bool b => .ok (if b then "true" else "false")
  | .num r => .ok r
  | .null => .ok "null"
  | .arr _ => .error .invalidSecretFormat
  | .obj _ => .error .invalidSecretFormat

/-- Rust `str::len()`: the UTF-8 byte length, computed over the chars. -/
def byteLenChars : List Char → Nat
  | [] => 0
  | c :: cs => c.utf8Size + byteLenChars cs

/-- Rust byte slicing `&s[n..]`: `none` models the panic when `n` is past
the end of the string or not on a character boundary. -/
def sliceFrom : List Char → Nat → Option (List Char)
  | l, 0 => some l
  | [], _ + 1 => none
  | c :: cs, n + 1 =>
    if c.utf8Size ≤ n + 1 then sliceFrom cs (n + 1 - c.utf8Size) else none

/-- convert_env_name from `env.rs`: slice the identifier from the byte
length of the requested leading part (a panic if out of range, hence the
outer `Option`), replace every `-` with `_`, and validate the result. -/
def convert_env_name (pfx name : String) : Option (Except EnvLoadError String) :=
  (sliceFrom name.data (byteLenChars pfx.data)).map
    (fun rest =>
      as_valid_env_name (String.mk (rest.map (fun c => if c == '-' then '_' else c))))

/-- Rust `collect::<Result<Vec<_>, _>>()` over an iterator of results:
stops at the first error, otherwise gathers every value in order. -/
def collectResults {ε α : Type} : List (Except ε α) → Except ε (List α)
  | [] => .ok []
  | .error e :: _ => .error e
  | .ok a :: xs =>
    match collectResults xs with
    | .error e => .error e
    | .ok l => .ok (a :: l)

/-- Decoding of one JSON object field, as inside the closure of
`decode_env_from_json`: validate the key, then coerce the value. -/
def decodePair (kv : String × JValue) : Except EnvLoadError (String × String) :=
  match as_valid_env_name kv.1 with
  | .error e => .error e
  | .ok n =>
    match value_as_string kv.2 with
    | .error e => .error e
    | .ok v => .ok (n, v)

/-- decode_env_from_json from `env.rs`: an object decodes field by field,
collected all-or-nothing; any other JSON value fails. -/
def decode_env_from_json : JValue → Except EnvLoadError EnvList
  | .obj m => collectResults (m.map decodePair)
  | _ => .error .invalidSecretFormat

/-- Whether a JSON value is an object. -/
def JValue.isObj : JValue → Bool
  | .obj _ => true
  | _ => false

/-- Shared characterisation of `ProcessEnv::into_env`: per-key, the merged
map masks `masked`, prefers the last backend binding, and falls back to the
last OS binding. -/
theorem into_env_spec (e : ProcessEnv) (amb : EnvList) (k : String) :
    findKV (e.into_env amb) k = mergeMaskSpec e.from_env.vec e.from_kv e.masked k := by
  unfold ProcessEnv.into_env mergeMaskSpec
  rw [findKV_foldl_removeKV, findKV_foldl_insertKV, findKV_foldl_insertKV]
  by_cases h : k ∈ e.masked
  · simp [h]
  · simp only [h, if_false]
    cases lookupLast e.from_kv k with
    | some v => rfl
    | none => cases lookupLast e.from_env.vec k with
      | some v => rfl
      | none => rfl

/-- C1: `into_env` equals the merge obtained by starting from the OS
source, overlaying every `from_kv` entry in order (later entries and
backend entries win), then removing every masked name; on the concrete
example OS = A,B,C / backend = A,B,D,E / mask = B,E the result is exactly
the map with A↦KV, C↦ENV, D↦KV. -/
theorem into_env_merge_mask_law :
    (∀ (e : ProcessEnv) (amb : EnvList) (k : String),
       findKV (e.into_env amb) k = mergeMaskSpec e.from_env.vec e.from_kv e.masked k)
    ∧ ProcessEnv.into_env
        { from_env := .Persisted [("A", "ENV"), ("B", "ENV"), ("C", "ENV")]
          from_kv := [("A", "KV"), ("B", "KV"), ("D", "KV"), ("E", "KV")]
          masked := ["B", "E"] } []
      = [("C", "ENV"), ("A", "KV"), ("D", "KV")] :=
  ⟨into_env_spec, rfl⟩

/-- C2: for a `Persisted` environment, `into_env` computed on the original
value equals `into_env` computed after `serialize` then `deserialize`,
whatever the ambient OS environment is at either call or at load time. -/
theorem persisted_roundtrip (osv kv : EnvList) (masked : List String)
    (ambLoad amb1 amb2 : EnvList) :
    ProcessEnv.into_env
      (ProcessEnv.deserialize ambLoad
        (ProcessEnv.serialize ⟨.Persisted osv, kv, masked⟩)) amb2
    = ProcessEnv.into_env ⟨.Persisted osv, kv, masked⟩ amb1 := rfl

/-- C3 counterexample: in `Fresh` mode `into_env` does not read the
ambient OS environment of the call. Constructed while the OS had X=1 and
called while the OS has X=2, the result still binds X to 1, not to the
value that merging the call-time environment (as the claim states) would
give. -/
theorem fresh_reads_at_construction_cex :
    findKV (ProcessEnv.into_env (ProcessEnv.new [("X", "1")] [] [] false) [("X", "2")]) "X"
      = some "1"
    ∧ findKV (ProcessEnv.into_env (ProcessEnv.new [("X", "1")] [] [] false) [("X", "2")]) "X"
      ≠ mergeMaskSpec [("X", "2")] [] [] "X" := by
  refine ⟨rfl, ?_⟩
  decide

/-- C3 amended: in `Fresh` mode `into_env` uses the OS environment read
when the `ProcessEnv` value was created — at construction time for
`ProcessEnv::new`, at deserialization time for a loaded artifact — not at
the moment `into_env` is called. -/
theorem fresh_uses_creation_time_env :
    (∀ (ambC ambCall kv : EnvList) (masked : List String) (k : String),
       findKV (ProcessEnv.into_env (ProcessEnv.new ambC kv masked false) ambCall) k
         = mergeMaskSpec ambC kv masked k)
    ∧ (∀ (ambLoad ambCall kv : EnvList) (masked : List String) (k : String),
       findKV (ProcessEnv.into_env
           (ProcessEnv.deserialize ambLoad ⟨none, kv, masked⟩) ambCall) k
         = mergeMaskSpec ambLoad kv masked k) :=
  ⟨fun ambC ambCall kv masked k => into_env_spec (ProcessEnv.new ambC kv masked false) ambCall k,
   fun ambLoad ambCall kv masked k =>
     into_env_spec (ProcessEnv.deserialize ambLoad ⟨none, kv, masked⟩) ambCall k⟩

/-- C6: serializing a `Fresh` environment omits the OS-environment field
entirely while keeping `from_kv` and `masked`; deserializing an artifact
without that field yields a `Fresh` environment (re-read at load time);
serializing a `Persisted` environment stores the snapshot verbatim. -/
theorem serialization_contract (osv kv : EnvList) (masked : List String) (amb : EnvList) :
    ProcessEnv.serialize ⟨.Fresh osv, kv, masked⟩ = ⟨none, kv, masked⟩
    ∧ ProcessEnv.deserialize amb ⟨none, kv, masked⟩ = ⟨.Fresh amb, kv, masked⟩
    ∧ ProcessEnv.serialize ⟨.Persisted osv, kv, masked⟩ = ⟨some (.Persisted osv), kv, masked⟩ :=
  ⟨rfl, rfl, rfl⟩

/-- C10: for a `Persisted` environment, `into_env` is a pure function of
the value's fields — two calls on the same value yield the same map even
when the ambient OS environment differs arbitrarily between the calls. -/
theorem persisted_into_env_pure (e : ProcessEnv) (amb1 amb2 : EnvList)
    (h : e.from_env.should_not_persist = false) :
    e.into_env amb1 = e.into_env amb2 := rfl

/-- Witness for C10 at a concrete persisted value and two differing
ambient environments. -/
theorem persisted_into_env_pure_witness :
    (ProcessEnv.mk (.Persisted [("A", "1")]) [] []).from_env.should_not_persist = false
    ∧ ProcessEnv.into_env (ProcessEnv.mk (.Persisted [("A", "1")]) [] []) [("X", "1")]
      = ProcessEnv.into_env (ProcessEnv.mk (.Persisted [("A", "1")]) [] []) [("X", "2")] :=
  ⟨rfl, persisted_into_env_pure (ProcessEnv.mk (.Persisted [("A", "1")]) [] [])
    [("X", "1")] [("X", "2")] rfl⟩

theorem isOkE_true {ε α : Type} {x : Except ε α} (h : isOkE x = true) : ∃ a, x = .ok a := by
  cases x with
  | ok a => exact ⟨a, rfl⟩
  | error e => simp [isOkE] at h

theorem as_valid_env_name_error {s : String} {e : EnvLoadError}
    (h : as_valid_env_name s = .error e) : e = .invalidSecretFormat := by
  unfold as_valid_env_name at h
  split at h
  · cases h
  · cases h; rfl

theorem value_as_string_error {v : JValue} {e : EnvLoadError}
    (h : value_as_string v = .error e) : e = .invalidSecretFormat := by
  cases v <;> simp [value_as_string] at h <;> try exact h.symm

theorem decodePair_error {kv : String × JValue} {e : EnvLoadError}
    (h : decodePair kv = .error e) : e = .invalidSecretFormat := by
  unfold decodePair at h
  cases hn : as_valid_env_name kv.1 with
  | error e1 =>
    rw [hn] at h; cases h; exact as_valid_env_name_error hn
  | ok n =>
    rw [hn] at h
    cases hv : value_as_string kv.2 with
    | error e2 => rw [hv] at h; cases h; exact value_as_string_error hv
    | ok v => rw [hv] at h; cases h

theorem decodePair_ok_of {kv : String × JValue}
    (h1 : isOkE (as_valid_env_name kv.1) = true)
    (h2 : isOkE (value_as_string kv.2) = true) :
    ∃ n v, decodePair kv = .ok (n, v)
      ∧ as_valid_env_name kv.1 = .ok n ∧ value_as_string kv.2 = .ok v := by
  obtain ⟨n, hn⟩ := isOkE_true h1
  obtain ⟨v, hv⟩ := isOkE_true h2
  exact ⟨n, v, by simp [decodePair, hn, hv], hn, hv⟩

theorem decodePair_ok_isOk {kv : String × JValue} {p : String × String}
    (h : decodePair kv = .ok p) :
    isOkE (as_valid_env_name kv.1) = true ∧ isOkE (value_as_string kv.2) = true := by
  unfold decodePair at h
  cases hn : as_valid_env_name kv.1 with
  | error e1 => rw [hn] at h; cases h
  | ok n =>
    rw [hn] at h
    cases hv : value_as_string kv.2 with
    | error e2 => rw [hv] at h; cases h
    | ok v => exact ⟨rfl, rfl⟩

/-- Per-field decoding relation: the output pair is exactly the validated
key and coerced value of the input field. -/
def decodedPairR (kv : String × JValue) (p : String × String) : Prop :=
  as_valid_env_name kv.1 = .ok p.1 ∧ value_as_string kv.2 = .ok p.2

theorem decode_all_ok (m : List (String × JValue))
    (h : ∀ kv ∈ m, isOkE (as_valid_env_name kv.1) = true
      ∧ isOkE (value_as_string kv.2) = true) :
    ∃ l, decode_env_from_json (.obj m) = .ok l ∧ List.Forall₂ decodedPairR m l := by
  induction m with
  | nil => exact ⟨[], rfl, List.Forall₂.nil⟩
  | cons kv rest ih =>
    obtain ⟨h1, h2⟩ := h kv (List.mem_cons_self kv rest)
    obtain ⟨n, v, hd, hn, hv⟩ := decodePair_ok_of h1 h2
    obtain ⟨l, hl, hf⟩ := ih (fun kv2 hm => h kv2 (List.mem_cons_of_mem kv hm))
    refine ⟨(n, v) :: l, ?_, List.Forall₂.cons ⟨hn, hv⟩ hf⟩
    simp only [decode_env_from_json, List.map_cons, hd] at hl ⊢
    simp only [collectResults, hl]

theorem decode_any_fails (m : List (String × JValue))
    (h : ∃ kv ∈ m, isOkE (as_valid_env_name kv.1) = false
      ∨ isOkE (value_as_string kv.2) = false) :
    decode_env_from_json (.obj m) = .error .invalidSecretFormat := by
  induction m with
  | nil => obtain ⟨kv, hm, _⟩ := h; cases hm
  | cons kv rest ih =>
    simp only [decode_env_from_json, List.map_cons]
    cases hd : decodePair kv with
    | error e =>
      have := decodePair_error hd
      subst this
      rfl
    | ok p =>
      obtain ⟨kv0, hm, hbad⟩ := h
      rcases List.mem_cons.mp hm with heq | hmem
      · subst heq
        obtain ⟨h1, h2⟩ := decodePair_ok_isOk hd
        rcases hbad with hb | hb
        · rw [h1] at hb; cases hb
        · rw [h2] at hb; cases hb
      · have hrest := ih ⟨kv0, hmem, hbad⟩
        simp only [decode_env_from_json] at hrest
        simp only [collectResults, hrest]

theorem decode_not_obj (v : JValue) (h : JValue.isObj v = false) :
    decode_env_from_json v = .error .invalidSecretFormat := by
  cases v <;> first
    | rfl
    | simp [JValue.isObj] at h

/-- C5: `decode_env_from_json` is all-or-nothing — if every key validates
and every value coerces, the full entry list is returned (one output pair
per input field, in order); if any single key or value fails, the whole
document fails with `InvalidSecretFormat` and no partial list is returned;
a non-object input also fails. -/
theorem decode_env_all_or_nothing :
    (∀ m : List (String × JValue),
       (∀ kv ∈ m, isOkE (as_valid_env_name kv.1) = true
          ∧ isOkE (value_as_string kv.2) = true) →
       ∃ l, decode_env_from_json (.obj m) = .ok l ∧ List.Forall₂ decodedPairR m l)
    ∧ (∀ m : List (String × JValue),
       (∃ kv ∈ m, isOkE (as_valid_env_name kv.1) = false
          ∨ isOkE (value_as_string kv.2) = false) →
       decode_env_from_json (.obj m) = .error .invalidSecretFormat)
    ∧ (∀ v : JValue, JValue.isObj v = false →
       decode_env_from_json v = .error .invalidSecretFormat) :=
  ⟨decode_all_ok, decode_any_fails, decode_not_obj⟩

/-- Witness for C5: a passing document decodes in full, a document with one
bad key fails whole, and an array fails. -/
theorem decode_env_all_or_nothing_witness :
    (∃ l, decode_env_from_json
        (.obj [("a", .str "x"), ("b", .num "12")]) = .ok l
      ∧ List.Forall₂ decodedPairR [("a", JValue.str "x"), ("b", JValue.num "12")] l)
    ∧ decode_env_from_json (.obj [("a", .str "x"), ("1b", .null)])
        = .error .invalidSecretFormat
    ∧ decode_env_from_json (.arr []) = .error .invalidSecretFormat :=
  ⟨decode_env_all_or_nothing.1 _ (by decide),
   decode_env_all_or_nothing.2.1 _ ⟨("1b", .null), by simp, by decide⟩,
   decode_env_all_or_nothing.2.2 _ rfl⟩

theorem sliceFrom_append (p t : List Char) :
    sliceFrom (p ++ t) (byteLenChars p) = some t := by
  induction p with
  | nil => simp [byteLenChars, sliceFrom]
  | cons c cs ih =>
    have hpos : 0 < c.utf8Size := Char.utf8Size_pos c
    have h1 : byteLenChars (c :: cs) = (c.utf8Size + byteLenChars cs - 1) + 1 := by
      simp only [byteLenChars]; omega
    rw [List.cons_append, h1]
    simp only [sliceFrom]
    rw [if_pos (by omega)]
    have h2 : (c.utf8Size + byteLenChars cs - 1) + 1 - c.utf8Size = byteLenChars cs := by
      omega
    rw [h2]
    exact ih

theorem sliceFrom_short (l : List Char) (n : Nat) (h : byteLenChars l < n) :
    sliceFrom l n = none := by
  induction l generalizing n with
  | nil =>
    cases n with
    | zero => cases h
    | succ m => rfl
  | cons c cs ih =>
    have hpos : 0 < c.utf8Size := Char.utf8Size_pos c
    cases n with
    | zero => cases h
    | succ m =>
      simp only [sliceFrom]
      split
      · exact ih (m + 1 - c.utf8Size) (by simp only [byteLenChars] at h; omega)
      · rfl

/-- C7 counterexample: with the leading part "abc" stripped from
"abc123", the remainder "123" starts with a digit, so `convert_env_name`
returns `InvalidSecretFormat` rather than the name "123" the claim
states. -/
theorem convert_env_name_abc123_cex :
    convert_env_name "abc" "abc123" = some (.error .invalidSecretFormat)
    ∧ convert_env_name "abc" "abc123" ≠ some (.ok "123") := by
  refine ⟨rfl, ?_⟩
  intro h
  rw [show convert_env_name "abc" "abc123"
      = some (Except.error EnvLoadError.invalidSecretFormat) from rfl] at h
  simp at h

theorem as_valid_env_name_ok_self {s : String}
    (h : isOkE (as_valid_env_name s) = true) : as_valid_env_name s = .ok s := by
  unfold as_valid_env_name at h ⊢
  split at h
  next hc => rw [if_pos hc]
  next hc => simp [isOkE] at h

/-- C7 amended: on an identifier that starts with the given leading part,
`convert_env_name` strips it, replaces every `-` by `_`, and hands the
remainder to `as_valid_env_name`, which returns the name itself exactly
when it is valid; prefix "" with "abc" yields "abc", "" with "abc-123"
yields "abc_123", and both "abc" with "abc123" (remainder "123" starts
with a digit) and "abc" with "abc" (empty remainder) fail validation. -/
theorem convert_env_name_strip_replace_validate :
    (∀ pfx rest : String,
       convert_env_name pfx (pfx ++ rest)
         = some (as_valid_env_name
             (String.mk (rest.data.map (fun c => if c == '-' then '_' else c)))))
    ∧ (∀ s : String, isOkE (as_valid_env_name s) = true → as_valid_env_name s = .ok s)
    ∧ convert_env_name "" "abc" = some (.ok "abc")
    ∧ convert_env_name "" "abc-123" = some (.ok "abc_123")
    ∧ convert_env_name "abc" "abc123" = some (.error .invalidSecretFormat)
    ∧ convert_env_name "abc" "abc" = some (.error .invalidSecretFormat) := by
  refine ⟨?_, fun s h => as_valid_env_name_ok_self h, rfl, rfl, rfl, rfl⟩
  intro pfx rest
  unfold convert_env_name
  rw [String.data_append, sliceFrom_append]
  rfl

/-- Witness for C7 amended at a concrete identifier built from a leading
part and a remainder. -/
theorem convert_env_name_strip_replace_validate_witness :
    convert_env_name "ab" ("ab" ++ "c-d")
      = some (as_valid_env_name
          (String.mk ("c-d".data.map (fun c => if c == '-' then '_' else c))))
    ∧ isOkE (as_valid_env_name "c_d") = true ∧ as_valid_env_name "c_d" = .ok "c_d" :=
  ⟨convert_env_name_strip_replace_validate.1 "ab" "c-d",
   by decide,
   convert_env_name_strip_replace_validate.2.1 "c_d" (by decide)⟩

/-- C9: `convert_env_name` panics (models as `none`) whenever the
identifier is shorter in bytes than the leading part being stripped, and
never panics when the identifier starts with that leading part. -/
theorem convert_env_name_panic_domain :
    (∀ pfx name : String,
       byteLenChars name.data < byteLenChars pfx.data → convert_env_name pfx name = none)
    ∧ (∀ pfx rest : String, ∃ r, convert_env_name pfx (pfx ++ rest) = some r) := by
  constructor
  · intro pfx name h
    unfold convert_env_name
    rw [sliceFrom_short name.data (byteLenChars pfx.data) h]
    rfl
  · intro pfx rest
    unfold convert_env_name
    rw [String.data_append, sliceFrom_append]
    exact ⟨_, rfl⟩

/-- Witness for C9: stripping "ab" from the one-byte identifier "a"
panics; stripping it from "ab" ++ "c" does not. -/
theorem convert_env_name_panic_domain_witness :
    byteLenChars "a".data < byteLenChars "ab".data
    ∧ convert_env_name "ab" "a" = none
    ∧ ∃ r, convert_env_name "ab" ("ab" ++ "c") = some r :=
  ⟨by decide,
   convert_env_name_panic_domain.1 "ab" "a" (by decide),
   convert_env_name_panic_domain.2 "ab" "c"⟩

/-- Rust `str::starts_with` on the character lists. -/
def startsWithChars : List Char → List Char → Bool
  | _, [] => true
  | [], _ :: _ => false
  | c :: cs, p :: ps => c == p && startsWithChars cs ps

theorem startsWithChars_exists {s p : List Char}
    (h : startsWithChars s p = true) : ∃ t, s = p ++ t := by
  induction p generalizing s with
  | nil => exact ⟨s, rfl⟩
  | cons x ps ih =>
    cases s with
    | nil => simp [startsWithChars] at h
    | cons c cs =>
      simp only [startsWithChars, Bool.and_eq_true, beq_iff_eq] at h
      obtain ⟨t, ht⟩ := ih h.2
      exact ⟨t, by rw [h.1, ht]; rfl⟩

/-- Rust `collect` over an iterator of `Option`s, i.e. how a panic in any
element propagates to the whole computation. -/
def sequenceOption {α : Type} : List (Option α) → Option (List α)
  | [] => some []
  | none :: _ => none
  | some a :: xs =>
    match sequenceOption xs with
    | none => none
    | some l => some (a :: l)

theorem sequenceOption_all_some {α β : Type} (f : α → Option β) (l : List α)
    (h : ∀ x ∈ l, (f x).isSome = true) :
    sequenceOption (l.map f) = some (l.filterMap f) := by
  induction l with
  | nil => rfl
  | cons x xs ih =>
    obtain ⟨r, hr⟩ := Option.isSome_iff_exists.mp (h x (List.mem_cons_self x xs))
    have := ih (fun y hy => h y (List.mem_cons_of_mem x hy))
    simp only [List.map_cons, hr, sequenceOption, this, List.filterMap_cons, hr]

/-- The first error in a list of results, in list order. -/
def firstError {ε α : Type} : List (Except ε α) → Option ε
  | [] => none
  | .error e :: _ => some e
  | .ok _ :: xs => firstError xs

theorem collectResults_of_firstError_some {ε α : Type} {xs : List (Except ε α)}
    {e : ε} (h : firstError xs = some e) : collectResults xs = .error e := by
  induction xs with
  | nil => cases h
  | cons x rest ih =>
    cases x with
    | error e1 => cases h; rfl
    | ok a =>
      simp only [firstError] at h
      simp only [collectResults, ih h]

theorem collectResults_of_firstError_none {ε α : Type} {xs : List (Except ε α)}
    (h : firstError xs = none) : ∃ l, collectResults xs = .ok l := by
  induction xs with
  | nil => exact ⟨[], rfl⟩
  | cons x rest ih =>
    cases x with
    | error e1 => cases h
    | ok a =>
      simp only [firstError] at h
      obtain ⟨l, hl⟩ := ih h
      exact ⟨a :: l, by simp only [collectResults, hl]⟩

/-- download_env_prefixed from `env.rs`, with the backend abstracted: the
listing yields `allSecrets`; matched names are those starting with the
requested leading part; each derived name (a panic propagates as `none`)
and each fetched value is collected all-or-nothing, keeping the first
error; on success the pairs become `from_kv` of a new `ProcessEnv`. -/
def download_env_prefixed (pfx : String) (allSecrets : List String)
    (fetch : String → Except EnvLoadError String) (mask : List String)
    (snapshot_env : Bool) (ambient : EnvList) :
    Option (Except EnvLoadError ProcessEnv) :=
  let secrets := allSecrets.filter (fun x => startsWithChars x.data pfx.data)
  match sequenceOption (secrets.map (fun x => convert_env_name pfx x)) with
  | none => none
  | some nameResults =>
    some
      (match collectResults nameResults with
       | .error e => .error e
       | .ok env_names =>
         match collectResults (secrets.map fetch) with
         | .error e => .error e
         | .ok env_values =>
           .ok (ProcessEnv.new ambient (env_names.zip env_values) mask snapshot_env))

/-- The first error encountered by prefix-mode resolution: the first
failing name derivation, else the first failing fetch, in listing order. -/
def firstEncError (pfx : String) (allSecrets : List String)
    (fetch : String → Except EnvLoadError String) : Option EnvLoadError :=
  let secrets := allSecrets.filter (fun x => startsWithChars x.data pfx.data)
  match firstError (secrets.filterMap (convert_env_name pfx)) with
  | some e => some e
  | none => firstError (secrets.map fetch)

theorem convert_env_name_isSome_of_startsWith {pfx x : String}
    (h : startsWithChars x.data pfx.data = true) :
    (convert_env_name pfx x).isSome = true := by
  obtain ⟨t, ht⟩ := startsWithChars_exists h
  unfold convert_env_name
  rw [ht, sliceFrom_append]
  rfl

/-- C4: whenever any matched identifier's name derivation or value fetch
fails, prefix-mode resolution returns the first encountered error and
produces no `ProcessEnv` holding the other, successful entries. -/
theorem download_env_prefixed_atomic (pfx : String) (allSecrets : List String)
    (fetch : String → Except EnvLoadError String) (mask : List String)
    (snapshot_env : Bool) (ambient : EnvList) (e : EnvLoadError)
    (h : firstEncError pfx allSecrets fetch = some e) :
    download_env_prefixed pfx allSecrets fetch mask snapshot_env ambient
      = some (.error e) := by
  have hsw : ∀ x ∈ allSecrets.filter (fun x => startsWithChars x.data pfx.data),
      (convert_env_name pfx x).isSome = true := by
    intro x hx
    exact convert_env_name_isSome_of_startsWith (List.mem_filter.mp hx).2
  have hseq := sequenceOption_all_some (convert_env_name pfx)
    (allSecrets.filter (fun x => startsWithChars x.data pfx.data)) hsw
  simp only [download_env_prefixed, hseq]
  simp only [firstEncError] at h
  cases hfe : firstError ((allSecrets.filter
      (fun x => startsWithChars x.data pfx.data)).filterMap (convert_env_name pfx)) with
  | some e1 =>
    rw [hfe] at h
    cases h
    rw [collectResults_of_firstError_some hfe]
  | none =>
    rw [hfe] at h
    obtain ⟨l, hl⟩ := collectResults_of_firstError_none hfe
    rw [hl, collectResults_of_firstError_some h]

/-- Witness for C4: of the three matched identifiers pa, pb, pc (q is not
matched), the fetch of pb fails while the two others succeed; resolution
returns that error and no environment. -/
theorem download_env_prefixed_atomic_witness :
    firstEncError "p" ["pa", "q", "pb", "pc"]
        (fun s => if s == "pb" then .error (.cannotLoadSecret 7) else .ok "v")
      = some (.cannotLoadSecret 7)
    ∧ download_env_prefixed "p" ["pa", "q", "pb", "pc"]
        (fun s => if s == "pb" then .error (.cannotLoadSecret 7) else .ok "v")
        [] false []
      = some (.error (.cannotLoadSecret 7)) :=
  ⟨by decide,
   download_env_prefixed_atomic "p" ["pa", "q", "pb", "pc"]
     (fun s => if s == "pb" then .error (.cannotLoadSecret 7) else .ok "v")
     [] false [] (.cannotLoadSecret 7) (by decide)⟩

/-- Observable steps of `run_with` from `run_with.rs`, in the order they
are performed. -/
inductive RunEvent where
  | loadEnv
  | spawn
  | wait
  | removeFile
deriving DecidableEq

/-- `std::process::ExitStatus`: an exit code, or termination by signal. -/
inductive ExitStatusM where
  | exited (code : Int)
  | signaled
deriving DecidableEq

/-- ExitStatus::success. -/
def ExitStatusM.success : ExitStatusM → Bool
  | .exited c => c == 0
  | .signaled => false

/-- ExitStatus::code. -/
def ExitStatusM.code : ExitStatusM → Option Int
  | .exited c => some c
  | .signaled => none

/-- RunWithError from `run_with.rs`. -/
inductive RunWithErrorM where
  | loadError
  | ioError
  | runError
  | cleanupError
  | failedStatus
deriving DecidableEq

/-- How the `run_with` invocation ends: normally, by re-exiting with the
child's code, or with an error. -/
inductive RunOutcome where
  | ok
  | exitWith (code : Int)
  | err (e : RunWithErrorM)
deriving DecidableEq

/-- run_with from `run_with.rs` over an abstract world: `loadR` is the
outcome of loading and flattening the cache artifact, `spawnR` of spawning
the child, `waitR` of waiting for it, `removeR` of deleting the artifact;
`cleanup` is the `--cleanup` flag. Returns the ordered trace of performed
steps and the final outcome. -/
def run_with (loadR : Except RunWithErrorM Unit)
    (spawnR : Except RunWithErrorM Unit)
    (waitR : Except RunWithErrorM ExitStatusM)
    (removeR : Except RunWithErrorM Unit)
    (cleanup : Bool) : List RunEvent × RunOutcome :=
  match loadR with
  | .error e => ([.loadEnv], .err e)
  | .ok _ =>
    match spawnR with
    | .error e => ([.loadEnv, .spawn], .err e)
    | .ok _ =>
      match waitR with
      | .error e => ([.loadEnv, .spawn, .wait], .err e)
      | .ok result =>
        if result.success && cleanup then
          match removeR with
          | .error _ => ([.loadEnv, .spawn, .wait, .removeFile], .err .cleanupError)
          | .ok _ => ([.loadEnv, .spawn, .wait, .removeFile], .ok)
        else if !result.success then
          match result.code with
          | some c => ([.loadEnv, .spawn, .wait], .exitWith c)
          | none => ([.loadEnv, .spawn, .wait], .err .failedStatus)
        else ([.loadEnv, .spawn, .wait], .ok)

/-- C8: the artifact is deleted only when the wait has completed with a
successful child exit and cleanup was requested — and then only after the
wait, as the trace shows; a failing child or an unset cleanup flag never
deletes the artifact. -/
theorem run_with_cleanup_spec (loadR spawnR : Except RunWithErrorM Unit)
    (waitR : Except RunWithErrorM ExitStatusM)
    (removeR : Except RunWithErrorM Unit) (cleanup : Bool) :
    (RunEvent.removeFile ∈ (run_with loadR spawnR waitR removeR cleanup).1 →
       cleanup = true
       ∧ (∃ st, waitR = .ok st ∧ st.success = true)
       ∧ (run_with loadR spawnR waitR removeR cleanup).1
           = [.loadEnv, .spawn, .wait, .removeFile])
    ∧ (∀ st, waitR = .ok st → st.success = false →
       RunEvent.removeFile ∉ (run_with loadR spawnR waitR removeR cleanup).1)
    ∧ (cleanup = false →
       RunEvent.removeFile ∉ (run_with loadR spawnR waitR removeR cleanup).1) := by
  cases loadR with
  | error e => simp [run_with]
  | ok u =>
    cases u
    cases spawnR with
    | error e => simp [run_with]
    | ok u2 =>
      cases u2
      cases waitR with
      | error e => simp [run_with]
      | ok st =>
        cases st with
        | signaled =>
          cases cleanup <;> cases removeR <;>
            simp [run_with, ExitStatusM.success, ExitStatusM.code]
        | exited c =>
          by_cases h0 : c = 0
          · subst h0
            cases cleanup <;> cases removeR <;>
              simp [run_with, ExitStatusM.success, ExitStatusM.code]
          · have : ((c : Int) == 0) = false := by simp [h0]
            cases cleanup <;> cases removeR <;>
              simp [run_with, ExitStatusM.success, ExitStatusM.code, this, h0]

/-- Witness for C8: with a successful load, spawn and wait (exit code 0)
and cleanup requested, the artifact is deleted and the trace shows the
deletion after the wait. -/
theorem run_with_cleanup_spec_witness :
    (true : Bool) = true
    ∧ (∃ st, (Except.ok (ExitStatusM.exited 0) : Except RunWithErrorM ExitStatusM)
          = .ok st ∧ st.success = true)
    ∧ (run_with (.ok ()) (.ok ()) (.ok (.exited 0)) (.ok ()) true).1
        = [.loadEnv, .spawn, .wait, .removeFile] :=
  (run_with_cleanup_spec (.ok ()) (.ok ()) (.ok (.exited 0)) (.ok ()) true).1 (by decide)

end Kvenv
